import Mathlib

/-!
Verification development for the frostdb table engine (src/table.go and the
physicalplan Synchronize barrier).  The Go source is shallowly embedded as
executable Lean definitions: pure functions become Lean functions, stateful
code becomes explicit state passing, machine integers become Nat/Int, and
fallible code returns Except.  The embedding is sequential: each Go critical
section (code under the table mutex) is one atomic Lean step.
-/

namespace FrostDB

/-- A record batch, abstracted to its row count and its schema field names
(the only attributes src/table.go inspects: record.NumRows and
record.Schema().Fields()). -/
structure Record where
  numRows : Nat
  fields : List String
  deriving DecidableEq, Repr

/-- WAL entries written by src/table.go: Entry_NewTableBlock (newTableBlock),
Entry_TableBlockPersisted (writeBlock), and the record entries appended by
WAL.LogRecord in Table.InsertRecord. -/
inductive WalEntry where
  | newTableBlock (tableName : String) (blockId : Nat)
  | tableBlockPersisted (tableName : String) (blockId : Nat)
  | recordEntry (tableName : String) (tx : Nat) (rec : Record)
  deriving DecidableEq, Repr

/-- completedBlock from src/table.go lines 131-134. -/
structure CompletedBlock where
  prevTx : Nat
  tx : Nat
  deriving DecidableEq, Repr

/-- TableBlock (src/table.go lines 173-192).  The ULID is abstracted to a Nat
drawn from a fresh counter (generateULID returns a fresh identifier; Go
compares blocks by pointer identity, which the unique ulid stands in for).
The LSM index is abstracted to the list of (tx, record) pairs added to it
(LSM.Add appends; its internals are outside src/table.go).  size is the
atomic byte counter, only read in src/table.go. -/
structure TableBlock where
  ulid : Nat
  minTx : Nat
  prevTx : Nat
  size : Int
  index : List (Nat × Record)
  pendingWriters : Nat
  deriving DecidableEq, Repr

/-- The two table metrics counters src/table.go increments on the insert
path (TableBlock.InsertRecord). -/
structure Metrics where
  rowsInserted : Nat
  zeroRowsInserted : Nat
  blocksRotated : Nat
  deriving DecidableEq, Repr

/-- Table (src/table.go lines 136-155) together with the pieces of db/WAL
state the embedded operations touch.  nextTx models db.begin's monotonic tx
clock; nextUlid models generateULID's fresh identifier supply.  walLogOk and
walLogRecordOk model whether the WAL's Log respectively LogRecord calls
succeed (the WAL is an interface; failures are injected through these
flags).  slotAcquisitions counts ActiveWriteBlock calls that handed out a
writer slot. -/
structure Table where
  name : String
  active : TableBlock
  pendingBlocks : List TableBlock
  completedBlocks : List CompletedBlock
  lastCompleted : Nat
  closing : Bool
  wal : List WalEntry
  walLogOk : Bool
  walLogRecordOk : Bool
  nextTx : Nat
  nextUlid : Nat
  metrics : Metrics
  activeMemorySize : Int
  slotAcquisitions : Nat
  deriving DecidableEq, Repr

/-! ### writeBlock completion watermark (src/table.go lines 419-436) -/

/-- The while loop of Table.writeBlock (src/table.go lines 424-435): while
the head of completedBlocks has prevTx equal to lastCompleted, advance
lastCompleted to the head's tx and pop the head.  Returns the remaining
list and the final watermark. -/
def advanceCompleted : List CompletedBlock → Nat → List CompletedBlock × Nat
  | [], last => ([], last)
  | c :: rest, last =>
    if c.prevTx = last then advanceCompleted rest c.tx else (c :: rest, last)

/-- The completion step of Table.writeBlock (src/table.go lines 419-436):
append the persisted block's pair to completedBlocks, sort by prevTx
ascending, then run the advance loop. -/
def recordPersisted (cbs : List CompletedBlock) (last : Nat) (b : CompletedBlock) :
    List CompletedBlock × Nat :=
  advanceCompleted ((cbs ++ [b]).mergeSort (fun x y => x.prevTx ≤ y.prevTx)) last

/-- A prefix-contiguous chain of completed blocks: each popped pair's prevTx
equals the running watermark, which then advances to that pair's tx. -/
inductive PrefixChain : Nat → List CompletedBlock → Nat → Prop
  | nil (last : Nat) : PrefixChain last [] last
  | cons {last final : Nat} (c : CompletedBlock) {rest : List CompletedBlock}
      (hc : c.prevTx = last) (h : PrefixChain c.tx rest final) :
      PrefixChain last (c :: rest) final

theorem advanceCompleted_chain (l : List CompletedBlock) (last : Nat) :
    ∃ popped, l = popped ++ (advanceCompleted l last).1 ∧
      PrefixChain last popped (advanceCompleted l last).2 := by
  induction l generalizing last with
  | nil => exact ⟨[], rfl, PrefixChain.nil last⟩
  | cons c rest ih =>
    by_cases hc : c.prevTx = last
    · obtain ⟨popped, hp, hchain⟩ := ih c.tx
      refine ⟨c :: popped, ?_, PrefixChain.cons c hc ?_⟩
      · simp [advanceCompleted, hc, ← hp]
      · simpa [advanceCompleted, hc] using hchain
    · refine ⟨[], by simp [advanceCompleted, hc], ?_⟩
      simpa [advanceCompleted, hc] using PrefixChain.nil last

theorem advanceCompleted_stop (l : List CompletedBlock) (last : Nat) :
    ∀ c rest2, (advanceCompleted l last).1 = c :: rest2 →
      c.prevTx ≠ (advanceCompleted l last).2 := by
  induction l generalizing last with
  | nil =>
    intro c rest2 h
    simp [advanceCompleted] at h
  | cons d rest ih =>
    intro c rest2 h
    by_cases hd : d.prevTx = last
    · simp only [advanceCompleted, if_pos hd] at h ⊢
      exact ih d.tx c rest2 h
    · simp only [advanceCompleted, if_neg hd] at h ⊢
      injection h with h1 h2
      subst h1
      exact hd

theorem prefixChain_mono {last final : Nat} {popped : List CompletedBlock}
    (hlt : ∀ c ∈ popped, c.prevTx < c.tx)
    (h : PrefixChain last popped final) : last ≤ final := by
  induction h with
  | nil => exact le_refl _
  | cons c hc h ih =>
    have h1 : c.prevTx < c.tx := hlt c (List.mem_cons_self _ _)
    have h2 : c.tx ≤ _ := ih (fun d hd => hlt d (List.mem_cons_of_mem _ hd))
    omega

/-! ### Table operations (src/table.go lines 340-366, 476-523, 536-623, 852-865) -/

/-- Table.newTableBlock (src/table.go lines 340-366): log an
Entry_NewTableBlock to the WAL; on success install a fresh active block
(newTableBlock, lines 833-845: empty index, size 0, given prevTx/minTx/id).
On WAL failure the active block is left unchanged. -/
def Table.newTableBlockFn (t : Table) (prevTx tx id : Nat) : Table × Except String Unit :=
  if t.walLogOk then
    ({ t with
        wal := t.wal ++ [WalEntry.newTableBlock t.name id],
        active := { ulid := id, minTx := tx, prevTx := prevTx, size := 0,
                    index := [], pendingWriters := 0 } },
      Except.ok ())
  else (t, Except.error "wal log failed")

/-- Table.RotateBlock (src/table.go lines 476-504).  Go compares the active
block to the argument by pointer identity; ulids are unique per block, so
ulid equality embeds pointer equality.  db.begin is the monotonic tx clock
(nextTx); generateULID is the fresh-identifier supply (nextUlid).  On the
no-op path the table is returned unchanged with a nil error.  The old block
moved into pendingBlocks is the table's own active block (the same object
the pointer argument denotes). -/
def Table.rotateBlock (t : Table) (block : TableBlock) : Table × Except String Unit :=
  if t.active.ulid = block.ulid then
    let tx := t.nextTx
    let old := t.active
    let t1 := { t with nextTx := t.nextTx + 1, nextUlid := t.nextUlid + 1 }
    match t1.newTableBlockFn old.minTx tx t.nextUlid with
    | (t2, Except.error e) => (t2, Except.error e)
    | (t2, Except.ok _) =>
      ({ t2 with
          metrics := { t2.metrics with blocksRotated := t2.metrics.blocksRotated + 1 },
          pendingBlocks := t2.pendingBlocks ++ [old] },
        Except.ok ())
  else (t, Except.ok ())

/-- Table.ActiveWriteBlock (src/table.go lines 513-523): if the table is
closing fail with ErrTableClosing; otherwise add one to the active block's
pendingWritersWg and hand out the active block with a release handle.
slotAcquisitions counts the successful acquisitions. -/
def Table.activeWriteBlock (t : Table) : Table × Except String TableBlock :=
  if t.closing then (t, Except.error "table closing")
  else
    let b := { t.active with pendingWriters := t.active.pendingWriters + 1 }
    ({ t with active := b, slotAcquisitions := t.slotAcquisitions + 1 }, Except.ok b)

/-- The release handle returned by ActiveWriteBlock
(t.active.pendingWritersWg.Done): in this sequential embedding the writer
being released always holds a slot on the current active block. -/
def Table.releaseActiveWriter (t : Table) : Table :=
  { t with active := { t.active with pendingWriters := t.active.pendingWriters - 1 } }

/-- Table.appender (src/table.go lines 573-623): loop acquiring the active
write block; if its size is below activeMemorySize return it, otherwise
release the slot without writing, rotate, and retry.  The unbounded Go loop
is given fuel; running out of fuel is an error, so every ok result comes
from the guarded return. -/
def Table.appender (t : Table) (fuel : Nat) : Table × Except String TableBlock :=
  match fuel with
  | 0 => (t, Except.error "out of fuel")
  | Nat.succ fuel =>
    match t.activeWriteBlock with
    | (t1, Except.error e) => (t1, Except.error e)
    | (t1, Except.ok block) =>
      if block.size < t1.activeMemorySize then (t1, Except.ok block)
      else
        match t1.releaseActiveWriter.rotateBlock block with
        | (t3, Except.error e) => (t3, Except.error ("rotate block: " ++ e))
        | (t3, Except.ok _) => t3.appender fuel

/-- TableBlock.InsertRecord (src/table.go lines 852-865): the deferred
metrics update adds the record's row count to rowsInserted in every branch;
a zero-row record increments zeroRowsInserted and leaves the index
untouched; otherwise the record is added to the LSM index at the given
tx. -/
def TableBlock.insertRecord (b : TableBlock) (m : Metrics) (tx : Nat) (r : Record) :
    TableBlock × Metrics × Except String Unit :=
  let m1 := { m with rowsInserted := m.rowsInserted + r.numRows }
  if r.numRows = 0 then
    (b, { m1 with zeroRowsInserted := m1.zeroRowsInserted + 1 }, Except.ok ())
  else
    ({ b with index := b.index ++ [(tx, r)] }, m1, Except.ok ())

/-- Table.InsertRecord (src/table.go lines 536-555): get an appender
(returning tx 0 on failure), begin a tx, append the record to the WAL via
LogRecord, then insert into the block; the deferred release handle runs on
every post-appender path.  The ctx argument is received but never consulted
on this path, exactly as in the source.  The block the appender returns is
the table's active block in this sequential embedding, so the block-level
insert writes back to the active block. -/
def Table.insertRecord (t : Table) (_ctxCanceled : Bool) (r : Record) (fuel : Nat) :
    Table × Nat × Except String Unit :=
  match t.appender fuel with
  | (t1, Except.error e) => (t1, 0, Except.error ("get appender: " ++ e))
  | (t1, Except.ok block) =>
    let tx := t1.nextTx
    let t2 := { t1 with nextTx := t1.nextTx + 1 }
    if t2.walLogRecordOk then
      let t3 := { t2 with wal := t2.wal ++ [WalEntry.recordEntry t2.name tx r] }
      match block.insertRecord t3.metrics tx r with
      | (b2, m2, Except.ok _) =>
        (({ t3 with active := b2, metrics := m2 }).releaseActiveWriter, tx, Except.ok ())
      | (b2, m2, Except.error e) =>
        (({ t3 with active := b2, metrics := m2 }).releaseActiveWriter, tx,
          Except.error ("insert buffer into block: " ++ e))
    else (t2.releaseActiveWriter, tx, Except.error "append to log")

/-- All (tx, record) pairs held by the table's in-memory blocks, active
first then pending, i.e. what a scan's collectRowGroups sees from memory
(src/table.go lines 974-995, 998-1034). -/
def Table.memoryRecords (t : Table) : List (Nat × Record) :=
  t.active.index ++ (t.pendingBlocks.map TableBlock.index).flatten

/-! ### Preservation helper lemmas -/

theorem newTableBlockFn_const (t : Table) (prevTx tx id : Nat) :
    (t.newTableBlockFn prevTx tx id).1.activeMemorySize = t.activeMemorySize ∧
    (t.newTableBlockFn prevTx tx id).1.closing = t.closing ∧
    (t.newTableBlockFn prevTx tx id).1.walLogOk = t.walLogOk ∧
    (t.newTableBlockFn prevTx tx id).1.walLogRecordOk = t.walLogRecordOk := by
  unfold Table.newTableBlockFn
  by_cases h : t.walLogOk <;> simp [h]

theorem rotateBlock_const (t : Table) (b : TableBlock) :
    (t.rotateBlock b).1.activeMemorySize = t.activeMemorySize ∧
    (t.rotateBlock b).1.closing = t.closing ∧
    (t.rotateBlock b).1.walLogOk = t.walLogOk ∧
    (t.rotateBlock b).1.walLogRecordOk = t.walLogRecordOk := by
  unfold Table.rotateBlock
  by_cases h : t.active.ulid = b.ulid
  · simp only [h, if_pos rfl]
    have h2 := newTableBlockFn_const
      { t with nextTx := t.nextTx + 1, nextUlid := t.nextUlid + 1 } t.active.minTx t.nextTx t.nextUlid
    cases hm : ({ t with nextTx := t.nextTx + 1, nextUlid := t.nextUlid + 1 } : Table).newTableBlockFn
        t.active.minTx t.nextTx t.nextUlid with
    | mk t2 res =>
      rw [hm] at h2
      cases res <;> simp_all
  · simp [h]

theorem rotateBlock_memoryRecords_perm (t : Table) (b : TableBlock) :
    ((t.rotateBlock b).1.memoryRecords).Perm t.memoryRecords := by
  unfold Table.rotateBlock Table.newTableBlockFn
  by_cases h : t.active.ulid = b.ulid
  · by_cases hw : t.walLogOk
    · simp only [h, if_pos rfl, hw, if_pos rfl]
      simp [Table.memoryRecords]
      exact (List.perm_append_comm).symm.trans (by simp)
    · simp [h, hw, Table.memoryRecords]
  · simp [h]

theorem rotateBlock_nextTx_le (t : Table) (b : TableBlock) :
    t.nextTx ≤ (t.rotateBlock b).1.nextTx := by
  unfold Table.rotateBlock Table.newTableBlockFn
  by_cases h : t.active.ulid = b.ulid
  · by_cases hw : t.walLogOk <;> simp [h, hw]
  · simp [h]

theorem activeWriteBlock_error (t t1 : Table) (e : String)
    (h : t.activeWriteBlock = (t1, Except.error e)) : t1 = t ∧ t.closing = true := by
  unfold Table.activeWriteBlock at h
  by_cases hc : t.closing <;> simp [hc] at h
  exact ⟨h.1.symm, hc⟩

theorem activeWriteBlock_ok (t t1 : Table) (b : TableBlock)
    (h : t.activeWriteBlock = (t1, Except.ok b)) :
    t.closing = false ∧
    b = { t.active with pendingWriters := t.active.pendingWriters + 1 } ∧
    t1 = { t with active := b, slotAcquisitions := t.slotAcquisitions + 1 } := by
  unfold Table.activeWriteBlock at h
  by_cases hc : t.closing <;> simp [hc] at h
  have hc2 : t.closing = false := by simpa using hc
  exact ⟨hc2, h.2.symm, by rw [← h.1, ← h.2, hc2]⟩

theorem activeWriteBlock_ok_fields (t t1 : Table) (b : TableBlock)
    (h : t.activeWriteBlock = (t1, Except.ok b)) :
    t.closing = false ∧ b.size = t.active.size ∧
    t1.activeMemorySize = t.activeMemorySize ∧ t1.walLogRecordOk = t.walLogRecordOk ∧
    t1.nextTx = t.nextTx ∧ t1.memoryRecords = t.memoryRecords := by
  obtain ⟨hc, hb, ht1⟩ := activeWriteBlock_ok t t1 b h
  subst ht1
  subst hb
  simp [Table.memoryRecords, hc]

theorem releaseActiveWriter_const (t : Table) :
    t.releaseActiveWriter.activeMemorySize = t.activeMemorySize ∧
    t.releaseActiveWriter.walLogRecordOk = t.walLogRecordOk ∧
    t.releaseActiveWriter.nextTx = t.nextTx ∧
    t.releaseActiveWriter.memoryRecords = t.memoryRecords := by
  simp [Table.releaseActiveWriter, Table.memoryRecords]

theorem appender_const (t : Table) (fuel : Nat) :
    (t.appender fuel).1.activeMemorySize = t.activeMemorySize ∧
    (t.appender fuel).1.walLogRecordOk = t.walLogRecordOk ∧
    t.nextTx ≤ (t.appender fuel).1.nextTx ∧
    ((t.appender fuel).1.memoryRecords).Perm t.memoryRecords := by
  induction fuel generalizing t with
  | zero => simp [Table.appender]
  | succ n ih =>
    rw [Table.appender]
    split
    · next t1 e heq =>
      obtain ⟨h1, _⟩ := activeWriteBlock_error t t1 e heq
      simp [h1]
    · next t1 block heq =>
      obtain ⟨hc, hbs, hm1, hw1, hn1, hmr1⟩ := activeWriteBlock_ok_fields t t1 block heq
      split
      · exact ⟨hm1, hw1, le_of_eq hn1.symm, hmr1 ▸ List.Perm.refl _⟩
      · have hrc := rotateBlock_const t1.releaseActiveWriter block
        have hrp := rotateBlock_memoryRecords_perm t1.releaseActiveWriter block
        have hrn := rotateBlock_nextTx_le t1.releaseActiveWriter block
        have hrl := releaseActiveWriter_const t1
        split
        · next t3 e heq2 =>
          rw [heq2] at hrc hrp hrn
          simp only at hrc hrp hrn
          refine ⟨?_, ?_, ?_, ?_⟩
          · rw [hrc.1, hrl.1, hm1]
          · rw [hrc.2.2.2, hrl.2.1, hw1]
          · rw [← hn1, ← hrl.2.2.1]; exact hrn
          · exact hrp.trans (hrl.2.2.2 ▸ hmr1 ▸ List.Perm.refl _)
        · next t3 u heq2 =>
          rw [heq2] at hrc hrp hrn
          simp only at hrc hrp hrn
          have hih := ih t3
          refine ⟨?_, ?_, ?_, ?_⟩
          · rw [hih.1, hrc.1, hrl.1, hm1]
          · rw [hih.2.1, hrc.2.2.2, hrl.2.1, hw1]
          · refine le_trans ?_ hih.2.2.1
            rw [← hn1, ← hrl.2.2.1]; exact hrn
          · exact hih.2.2.2.trans (hrp.trans (hrl.2.2.2 ▸ hmr1 ▸ List.Perm.refl _))

theorem appender_ok_below (t : Table) (fuel : Nat) (t' : Table) (b : TableBlock)
    (h : t.appender fuel = (t', Except.ok b)) : b.size < t.activeMemorySize := by
  induction fuel generalizing t with
  | zero => simp [Table.appender] at h
  | succ n ih =>
    rw [Table.appender] at h
    split at h
    · simp at h
    · next t1 block heq =>
      obtain ⟨hc, hbs, hm1, hw1, hn1, hmr1⟩ := activeWriteBlock_ok_fields t t1 block heq
      split at h
      · next hs =>
        cases h
        rw [hm1] at hs
        exact hs
      · split at h
        · simp at h
        · next t3 u heq2 =>
          have hba := ih t3 h
          have hrc := rotateBlock_const t1.releaseActiveWriter block
          rw [heq2] at hrc
          simp only at hrc
          have hrl := releaseActiveWriter_const t1
          rw [hrc.1, hrl.1, hm1] at hba
          exact hba

/-! ### Claim theorems: rotation and the appender -/

/-- C2: after appending the persisted pair to completedBlocks and sorting by
prevTx ascending, the writeBlock completion loop pops exactly a
prefix-contiguous chain of prevTx/tx pairs starting at lastCompleted, each
popped head satisfying prevTx = watermark before advancing the watermark to
its tx; consequently (every real pair having prevTx < tx, as a block's minTx
is a later tx than its predecessor's) lastCompleted is monotonically
non-decreasing, for every completion order of rotated blocks. -/
theorem writeBlock_watermark_prefix_contiguous
    (cbs : List CompletedBlock) (last : Nat) (b : CompletedBlock)
    (hlt : ∀ c ∈ cbs ++ [b], c.prevTx < c.tx) :
    last ≤ (recordPersisted cbs last b).2 ∧
    (∃ popped,
      (cbs ++ [b]).mergeSort (fun x y => x.prevTx ≤ y.prevTx) =
        popped ++ (recordPersisted cbs last b).1 ∧
      PrefixChain last popped (recordPersisted cbs last b).2) ∧
    (∀ c rest2, (recordPersisted cbs last b).1 = c :: rest2 →
      c.prevTx ≠ (recordPersisted cbs last b).2) := by
  obtain ⟨popped, hp, hchain⟩ :=
    advanceCompleted_chain ((cbs ++ [b]).mergeSort (fun x y => x.prevTx ≤ y.prevTx)) last
  have hmem : ∀ c ∈ popped, c.prevTx < c.tx := by
    intro c hc
    apply hlt
    have hin : c ∈ (cbs ++ [b]).mergeSort (fun x y => x.prevTx ≤ y.prevTx) := by
      rw [hp]; exact List.mem_append_left _ hc
    exact ((cbs ++ [b]).mergeSort_perm (fun x y => x.prevTx ≤ y.prevTx)).subset hin
  exact ⟨prefixChain_mono hmem hchain, ⟨popped, hp, hchain⟩,
    advanceCompleted_stop ((cbs ++ [b]).mergeSort (fun x y => x.prevTx ≤ y.prevTx)) last⟩

/-- C2 witness: blocks rotated as A (prevTx 0, tx 1), B (prevTx 1, tx 2),
C (prevTx 2, tx 3); persistence completes in order C, A.  After C completes
the watermark stays 0; after A completes it advances to 1 and the theorem
certifies the contiguity of the popped prefix. -/
theorem writeBlock_watermark_prefix_contiguous_witness :
    (∀ c ∈ ([⟨2, 3⟩] : List CompletedBlock) ++ [(⟨0, 1⟩ : CompletedBlock)], c.prevTx < c.tx) ∧
    (0 ≤ (recordPersisted [⟨2, 3⟩] 0 ⟨0, 1⟩).2 ∧
      (∃ popped,
        (([⟨2, 3⟩] : List CompletedBlock) ++ [(⟨0, 1⟩ : CompletedBlock)]).mergeSort
            (fun x y => x.prevTx ≤ y.prevTx) =
          popped ++ (recordPersisted [⟨2, 3⟩] 0 ⟨0, 1⟩).1 ∧
        PrefixChain 0 popped (recordPersisted [⟨2, 3⟩] 0 ⟨0, 1⟩).2) ∧
      (∀ c rest2, (recordPersisted [⟨2, 3⟩] 0 ⟨0, 1⟩).1 = c :: rest2 →
        c.prevTx ≠ (recordPersisted [⟨2, 3⟩] 0 ⟨0, 1⟩).2)) :=
  ⟨by decide, writeBlock_watermark_prefix_contiguous [⟨2, 3⟩] 0 ⟨0, 1⟩ (by decide)⟩

/-- C3: RotateBlock is a no-op returning success when the active block has
already advanced past oldBlock, and (when the WAL append of the
BlockCreated entry succeeds, and the fresh ulid is indeed fresh) it
replaces the active block exactly when the active block is still oldBlock,
moving the old block into pendingBlocks; hence RotateBlock is idempotent
for a given oldBlock. -/
theorem rotateBlock_replaces_iff_active (t : Table) (b : TableBlock)
    (hfresh : t.active.ulid ≠ t.nextUlid) (hwal : t.walLogOk = true) :
    (t.active.ulid ≠ b.ulid → t.rotateBlock b = (t, Except.ok ())) ∧
    ((t.rotateBlock b).1.active.ulid ≠ t.active.ulid ↔ t.active.ulid = b.ulid) ∧
    (t.active.ulid = b.ulid →
      (t.rotateBlock b).1.active.ulid = t.nextUlid ∧
      (t.rotateBlock b).1.pendingBlocks = t.pendingBlocks ++ [t.active] ∧
      (t.rotateBlock b).2 = Except.ok ()) := by
  unfold Table.rotateBlock Table.newTableBlockFn
  by_cases h : t.active.ulid = b.ulid
  · simp_all
    omega
  · simp_all

/-- C3 witness: a concrete table whose active block is block 1; rotating
with a stale handle (ulid 0) is a no-op returning success, while rotating
the active block itself replaces it. -/
theorem rotateBlock_replaces_iff_active_witness :
    let blk : TableBlock :=
      { ulid := 1, minTx := 1, prevTx := 0, size := 5, index := [], pendingWriters := 0 }
    let t : Table :=
      { name := "t", active := blk, pendingBlocks := [], completedBlocks := [],
        lastCompleted := 0, closing := false, wal := [], walLogOk := true,
        walLogRecordOk := true, nextTx := 2, nextUlid := 2,
        metrics := { rowsInserted := 0, zeroRowsInserted := 0, blocksRotated := 0 },
        activeMemorySize := 100, slotAcquisitions := 0 }
    (t.active.ulid ≠ blk.ulid → t.rotateBlock blk = (t, Except.ok ())) ∧
    ((t.rotateBlock blk).1.active.ulid ≠ t.active.ulid ↔ t.active.ulid = blk.ulid) ∧
    (t.active.ulid = blk.ulid →
      (t.rotateBlock blk).1.active.ulid = t.nextUlid ∧
      (t.rotateBlock blk).1.pendingBlocks = t.pendingBlocks ++ [t.active] ∧
      (t.rotateBlock blk).2 = Except.ok ()) :=
  rotateBlock_replaces_iff_active _ _ (by decide) (by decide)

/-- A concrete table block for witnesses. -/
def mkBlock (id : Nat) (sz : Int) : TableBlock :=
  { ulid := id, minTx := 1, prevTx := 0, size := sz, index := [], pendingWriters := 0 }

/-- A concrete writable table for witnesses: active block of the given size,
both WAL flags as given. -/
def mkTable (sz memSize : Int) (walOk walRecOk : Bool) : Table :=
  { name := "t", active := mkBlock 1 sz, pendingBlocks := [], completedBlocks := [],
    lastCompleted := 0, closing := false, wal := [], walLogOk := walOk,
    walLogRecordOk := walRecOk, nextTx := 2, nextUlid := 2,
    metrics := { rowsInserted := 0, zeroRowsInserted := 0, blocksRotated := 0 },
    activeMemorySize := memSize, slotAcquisitions := 0 }

/-- C4: every block the appender hands out was observed strictly below
activeMemorySize; and whenever the acquired block has reached the
threshold, the writer slot is released without writing (releaseActiveWriter
runs before any insertion), rotation is attempted, and the loop retries on
the resulting state. -/
theorem appender_returns_block_below_threshold (t : Table) (fuel : Nat) :
    (∀ t' b, t.appender fuel = (t', Except.ok b) → b.size < t.activeMemorySize) ∧
    (t.closing = false → t.activeMemorySize ≤ t.active.size →
      t.appender (fuel + 1) =
        match ((t.activeWriteBlock.1.releaseActiveWriter).rotateBlock
            { t.active with pendingWriters := t.active.pendingWriters + 1 }) with
        | (t3, Except.error e) => (t3, Except.error ("rotate block: " ++ e))
        | (t3, Except.ok _) => t3.appender fuel) := by
  constructor
  · intro t' b h
    exact appender_ok_below t fuel t' b h
  · intro hc hs
    rw [Table.appender]
    simp [Table.activeWriteBlock, hc, not_lt.mpr hs]

/-- C4 witness: a table whose active block has size 10 with threshold 5.
The appender with fuel 2 rotates once and returns a fresh block of size 0,
strictly below the threshold; the threshold step releases and retries as
stated. -/
theorem appender_returns_block_below_threshold_witness :
    ((mkTable 10 5 true true).closing = false ∧
      (mkTable 10 5 true true).activeMemorySize ≤ (mkTable 10 5 true true).active.size) ∧
    ((mkTable 10 5 true true).appender (1 + 1) =
      match (((mkTable 10 5 true true).activeWriteBlock.1.releaseActiveWriter).rotateBlock
          { (mkTable 10 5 true true).active with
              pendingWriters := (mkTable 10 5 true true).active.pendingWriters + 1 }) with
      | (t3, Except.error e) => (t3, Except.error ("rotate block: " ++ e))
      | (t3, Except.ok _) => t3.appender 1) :=
  ⟨⟨rfl, by decide⟩,
    (appender_returns_block_below_threshold (mkTable 10 5 true true) 1).2 rfl (by decide)⟩

/-- C1: when WAL logging of the record fails (LogRecord returns an error),
InsertRecord surfaces the error and no index mutation occurs: the set of
(tx, record) pairs a subsequent scan collects from the in-memory blocks is
unchanged (a permutation: a rotation the appender may have performed only
regroups blocks, never their contents). -/
theorem insertRecord_wal_failure_no_index_mutation
    (t : Table) (c : Bool) (r : Record) (fuel : Nat)
    (hwal : t.walLogRecordOk = false) :
    (∃ e, (t.insertRecord c r fuel).2.2 = Except.error e) ∧
    (∀ b, (t.appender fuel).2 = Except.ok b →
      (t.insertRecord c r fuel).2.2 = Except.error "append to log") ∧
    ((t.insertRecord c r fuel).1.memoryRecords).Perm t.memoryRecords := by
  have hac := appender_const t fuel
  cases hap : t.appender fuel with
  | mk t1 res =>
    rw [hap] at hac
    simp only at hac
    cases res with
    | error e =>
      refine ⟨⟨"get appender: " ++ e, ?_⟩, fun b hb => by simp at hb, ?_⟩
      · unfold Table.insertRecord
        rw [hap]
      · unfold Table.insertRecord
        rw [hap]
        exact hac.2.2.2
    | ok block =>
      have hrec : t1.walLogRecordOk = false := by rw [hac.2.1, hwal]
      have hneg : ¬(({ t1 with nextTx := t1.nextTx + 1 } : Table).walLogRecordOk = true) := by
        simp [hrec]
      have herr : (t.insertRecord c r fuel).2.2 = Except.error "append to log" := by
        unfold Table.insertRecord
        rw [hap]
        dsimp only
        rw [if_neg hneg]
      refine ⟨⟨"append to log", herr⟩, fun b hb => herr, ?_⟩
      unfold Table.insertRecord
      rw [hap]
      dsimp only
      rw [if_neg hneg]
      exact hac.2.2.2

/-- C1 witness: a table whose WAL rejects LogRecord; inserting a one-row
record fails and the in-memory records are unchanged. -/
theorem insertRecord_wal_failure_no_index_mutation_witness :
    (mkTable 0 5 true false).walLogRecordOk = false ∧
    ((∃ e, ((mkTable 0 5 true false).insertRecord false ⟨1, ["v"]⟩ 1).2.2 =
        Except.error e) ∧
      (∀ b, ((mkTable 0 5 true false).appender 1).2 = Except.ok b →
        ((mkTable 0 5 true false).insertRecord false ⟨1, ["v"]⟩ 1).2.2 =
          Except.error "append to log") ∧
      (((mkTable 0 5 true false).insertRecord false ⟨1, ["v"]⟩ 1).1.memoryRecords).Perm
        (mkTable 0 5 true false).memoryRecords) :=
  ⟨rfl, insertRecord_wal_failure_no_index_mutation (mkTable 0 5 true false) false ⟨1, ["v"]⟩ 1 rfl⟩

/-- C9: whenever the appender hands out a writer slot, InsertRecord returns
the write-tx assigned by the tx clock at that point, on the success path
and on both failure paths (WAL logging failure and block insertion
failure), and that tx is nonzero; a zero tx is returned exactly when the
appender failed to acquire a writer slot. -/
theorem insertRecord_returns_assigned_tx (t : Table) (c : Bool) (r : Record) (fuel : Nat)
    (hpos : 0 < t.nextTx) :
    (∀ e, (t.appender fuel).2 = Except.error e → (t.insertRecord c r fuel).2.1 = 0) ∧
    (∀ b, (t.appender fuel).2 = Except.ok b →
      (t.insertRecord c r fuel).2.1 = (t.appender fuel).1.nextTx ∧
      0 < (t.insertRecord c r fuel).2.1) := by
  have hac := appender_const t fuel
  cases hap : t.appender fuel with
  | mk t1 res =>
    rw [hap] at hac
    simp only at hac
    cases res with
    | error e =>
      refine ⟨fun e2 he => ?_, fun b hb => by simp at hb⟩
      unfold Table.insertRecord
      rw [hap]
    | ok block =>
      have htx : (t.insertRecord c r fuel).2.1 = t1.nextTx := by
        unfold Table.insertRecord
        rw [hap]
        dsimp only
        split
        · split <;> rfl
        · rfl
      refine ⟨fun e he => by simp at he, fun b hb => ?_⟩
      have h3 := hac.2.2.1
      exact ⟨htx, by rw [htx]; omega⟩

/-- C9 witness: with a healthy table the insert succeeds and returns the
assigned tx 2, which is nonzero. -/
theorem insertRecord_returns_assigned_tx_witness :
    0 < (mkTable 0 5 true true).nextTx ∧
    (((mkTable 0 5 true true).appender 1).2 = Except.ok ((mkTable 0 5 true true).appender 1).1.active ∧
      ((mkTable 0 5 true true).insertRecord false ⟨1, ["v"]⟩ 1).2.1 =
        ((mkTable 0 5 true true).appender 1).1.nextTx ∧
      0 < ((mkTable 0 5 true true).insertRecord false ⟨1, ["v"]⟩ 1).2.1) :=
  ⟨by decide, by
    have h := (insertRecord_returns_assigned_tx (mkTable 0 5 true true) false ⟨1, ["v"]⟩ 1
      (by decide)).2 ((mkTable 0 5 true true).appender 1).1.active (by rfl)
    exact ⟨by rfl, h.1, h.2⟩⟩

/-- The appender when the table is open and the active block is below the
threshold: the very first iteration acquires the slot and returns the
active block. -/
theorem appender_fast (t : Table) (n : Nat) (hc : t.closing = false)
    (hsz : t.active.size < t.activeMemorySize) :
    t.appender (n + 1) = t.activeWriteBlock := by
  rw [Table.appender]
  simp [Table.activeWriteBlock, hc, hsz]

/-- C5 counterexample: inserting a zero-row batch into a concrete healthy
table succeeds, increments zeroRowsInserted, and leaves the index
untouched, but the batch IS logged to the WAL as a data record (the WAL
append in Table.InsertRecord runs before the zero-row check in
TableBlock.InsertRecord), contradicting the claim that it is not
WAL-logged. -/
theorem insertRecord_zero_rows_counterexample :
    ((mkTable 0 5 true true).insertRecord false ⟨0, []⟩ 1).2.2 = Except.ok () ∧
    ((mkTable 0 5 true true).insertRecord false ⟨0, []⟩ 1).1.metrics.zeroRowsInserted = 1 ∧
    ((mkTable 0 5 true true).insertRecord false ⟨0, []⟩ 1).1.active.index = [] ∧
    ((mkTable 0 5 true true).insertRecord false ⟨0, []⟩ 1).1.wal =
      [WalEntry.recordEntry "t" 2 ⟨0, []⟩] := by
  refine ⟨rfl, rfl, rfl, rfl⟩

/-- C5 amended: a zero-row insert is accepted (returns success), increments
zeroRowsInserted, and is not added to the in-memory index; however, it IS
WAL-logged as a data record, since Table.InsertRecord appends every record
to the WAL before the row-count check in TableBlock.InsertRecord. -/
theorem insertRecord_zero_rows (t : Table) (c : Bool) (r : Record) (fuel : Nat)
    (hr : r.numRows = 0) (hc : t.closing = false)
    (hsz : t.active.size < t.activeMemorySize)
    (hw : t.walLogRecordOk = true) (hf : 0 < fuel) :
    (t.insertRecord c r fuel).2.2 = Except.ok () ∧
    (t.insertRecord c r fuel).1.metrics.zeroRowsInserted =
      t.metrics.zeroRowsInserted + 1 ∧
    (t.insertRecord c r fuel).1.active.index = t.active.index ∧
    (t.insertRecord c r fuel).1.pendingBlocks = t.pendingBlocks ∧
    (t.insertRecord c r fuel).1.wal = t.wal ++ [WalEntry.recordEntry t.name t.nextTx r] := by
  obtain ⟨n, rfl⟩ : ∃ n, fuel = n + 1 := ⟨fuel - 1, by omega⟩
  unfold Table.insertRecord
  rw [appender_fast t n hc hsz]
  simp [Table.activeWriteBlock, hc, hw, TableBlock.insertRecord, hr,
    Table.releaseActiveWriter]

/-- C5 amended witness. -/
theorem insertRecord_zero_rows_witness :
    ((0 : Nat) = 0 ∧ (mkTable 0 5 true true).closing = false ∧
      (mkTable 0 5 true true).active.size < (mkTable 0 5 true true).activeMemorySize ∧
      (mkTable 0 5 true true).walLogRecordOk = true ∧ 0 < 1) ∧
    (((mkTable 0 5 true true).insertRecord false ⟨0, []⟩ 1).2.2 = Except.ok () ∧
      ((mkTable 0 5 true true).insertRecord false ⟨0, []⟩ 1).1.metrics.zeroRowsInserted =
        (mkTable 0 5 true true).metrics.zeroRowsInserted + 1 ∧
      ((mkTable 0 5 true true).insertRecord false ⟨0, []⟩ 1).1.active.index =
        (mkTable 0 5 true true).active.index ∧
      ((mkTable 0 5 true true).insertRecord false ⟨0, []⟩ 1).1.pendingBlocks =
        (mkTable 0 5 true true).pendingBlocks ∧
      ((mkTable 0 5 true true).insertRecord false ⟨0, []⟩ 1).1.wal =
        (mkTable 0 5 true true).wal ++
          [WalEntry.recordEntry (mkTable 0 5 true true).name
            (mkTable 0 5 true true).nextTx ⟨0, []⟩]) :=
  ⟨⟨rfl, rfl, by decide, rfl, by decide⟩,
    insertRecord_zero_rows (mkTable 0 5 true true) false ⟨0, []⟩ 1 rfl rfl (by decide) rfl
      (by decide)⟩

/-- C7 counterexample: with an already-canceled context, InsertRecord still
acquires a writer slot (slotAcquisitions goes from 0 to 1), still performs
the WAL append of the record, and returns success instead of a cancellation
error: no context check exists before ActiveWriteBlock on the insert
path. -/
theorem insertRecord_canceled_context_counterexample :
    ((mkTable 0 5 true true).insertRecord true ⟨1, ["v"]⟩ 1).2.2 = Except.ok () ∧
    ((mkTable 0 5 true true).insertRecord true ⟨1, ["v"]⟩ 1).1.slotAcquisitions = 1 ∧
    ((mkTable 0 5 true true).insertRecord true ⟨1, ["v"]⟩ 1).1.wal =
      [WalEntry.recordEntry "t" 2 ⟨1, ["v"]⟩] := by
  refine ⟨rfl, rfl, rfl⟩

/-- C7 amended: InsertRecord does not consult its context before acquiring
a writer slot: the outcome is independent of whether the context is
canceled, and with an already-canceled context a writer slot is still
acquired and the WAL append of the record is still performed. -/
theorem insertRecord_ignores_context (t : Table) (r : Record) (fuel : Nat)
    (hc : t.closing = false) (hsz : t.active.size < t.activeMemorySize)
    (hw : t.walLogRecordOk = true) (hf : 0 < fuel) :
    (∀ c c2, t.insertRecord c r fuel = t.insertRecord c2 r fuel) ∧
    (t.insertRecord true r fuel).1.slotAcquisitions = t.slotAcquisitions + 1 ∧
    (t.insertRecord true r fuel).1.wal =
      t.wal ++ [WalEntry.recordEntry t.name t.nextTx r] := by
  refine ⟨fun c c2 => rfl, ?_, ?_⟩ <;>
  · obtain ⟨n, rfl⟩ : ∃ n, fuel = n + 1 := ⟨fuel - 1, by omega⟩
    unfold Table.insertRecord
    rw [appender_fast t n hc hsz]
    by_cases hr : r.numRows = 0 <;>
      simp [Table.activeWriteBlock, hc, hw, TableBlock.insertRecord, hr,
        Table.releaseActiveWriter]

/-- C7 amended witness. -/
theorem insertRecord_ignores_context_witness :
    ((mkTable 0 5 true true).closing = false ∧
      (mkTable 0 5 true true).active.size < (mkTable 0 5 true true).activeMemorySize ∧
      (mkTable 0 5 true true).walLogRecordOk = true ∧ 0 < 1) ∧
    ((∀ c c2, (mkTable 0 5 true true).insertRecord c ⟨1, ["v"]⟩ 1 =
        (mkTable 0 5 true true).insertRecord c2 ⟨1, ["v"]⟩ 1) ∧
      ((mkTable 0 5 true true).insertRecord true ⟨1, ["v"]⟩ 1).1.slotAcquisitions =
        (mkTable 0 5 true true).slotAcquisitions + 1 ∧
      ((mkTable 0 5 true true).insertRecord true ⟨1, ["v"]⟩ 1).1.wal =
        (mkTable 0 5 true true).wal ++
          [WalEntry.recordEntry (mkTable 0 5 true true).name
            (mkTable 0 5 true true).nextTx ⟨1, ["v"]⟩]) :=
  ⟨⟨rfl, by decide, rfl, by decide⟩,
    insertRecord_ignores_context (mkTable 0 5 true true) ⟨1, ["v"]⟩ 1 rfl (by decide) rfl
      (by decide)⟩

/-! ### SchemaIterator (src/table.go lines 733-825, 998-1034) -/

/-- A row-group item flowing through the scan channel: either an in-memory
record batch or a dynamic parquet row group.  SchemaIterator inspects only
the item's schema field names (the switch at src/table.go lines 778-810
reads record.Schema().Fields() resp. rowGroup.Schema().Fields() and appends
each field name to the output record). -/
inductive ScanItem where
  | recordBatch (fields : List String)
  | dynRowGroup (fields : List String)
  deriving DecidableEq, Repr

/-- The field names SchemaIterator observes in a row-group item. -/
def ScanItem.fieldNames : ScanItem → List String
  | ScanItem.recordBatch fs => fs
  | ScanItem.dynRowGroup fs => fs

/-- Table.collectRowGroups (src/table.go lines 998-1034) over abstract
sources: sources are scanned sequentially, and each source's Scan pushes
its row-group items into the channel in order.  A source is a scan source
(an external source or a memory block's index), abstracted to the list of
items its Scan emits. -/
def collectRowGroups (sources : List (List ScanItem)) : List ScanItem :=
  sources.flatten

/-- The SchemaIterator worker loop (src/table.go lines 766-813), sequential
single-consumer embedding: for every item received from the channel one
name-record is built from that item's schema field names (switching on the
item kind exactly as the source does) and the callback is invoked once with
it.  Returns the records the callback receives, in order. -/
def schemaWorker : List ScanItem → List (List String)
  | [] => []
  | ScanItem.recordBatch fs :: rest => fs :: schemaWorker rest
  | ScanItem.dynRowGroup fs :: rest => fs :: schemaWorker rest

/-- Table.SchemaIterator end to end: the records emitted for a scan over
the given sources. -/
def schemaIteratorEmitted (sources : List (List ScanItem)) : List (List String) :=
  schemaWorker (collectRowGroups sources)

theorem schemaWorker_eq_map (items : List ScanItem) :
    schemaWorker items = items.map ScanItem.fieldNames := by
  induction items with
  | nil => rfl
  | cons i rest ih => cases i <;> simp [schemaWorker, ScanItem.fieldNames, ih]

/-- C8 counterexample: a single source whose Scan emits two row groups
makes SchemaIterator emit two records, not one record per source; so the
claim that exactly one record is emitted per source is false. -/
theorem schemaIterator_one_per_source_counterexample :
    (schemaIteratorEmitted
        [[ScanItem.recordBatch ["a"], ScanItem.dynRowGroup ["a", "b"]]]).length = 2 ∧
    ([[ScanItem.recordBatch ["a"], ScanItem.dynRowGroup ["a", "b"]]] :
        List (List ScanItem)).length = 1 ∧
    (2 : Nat) ≠ 1 := by
  refine ⟨rfl, rfl, by decide⟩

/-- C8 amended: SchemaIterator emits exactly one record per row-group item
collected from the sources (a source emitting several row groups yields
several records), and each emitted record contains exactly the field names
observed in the corresponding item. -/
theorem schemaIterator_one_record_per_item (sources : List (List ScanItem)) :
    (schemaIteratorEmitted sources).length = (collectRowGroups sources).length ∧
    ∀ i (h : i < (collectRowGroups sources).length),
      (schemaIteratorEmitted sources).get
          ⟨i, by simpa [schemaIteratorEmitted, schemaWorker_eq_map] using h⟩ =
        ((collectRowGroups sources).get ⟨i, h⟩).fieldNames := by
  refine ⟨by simp [schemaIteratorEmitted, schemaWorker_eq_map], ?_⟩
  intro i h
  simp [schemaIteratorEmitted, schemaWorker_eq_map]

/-- C8 amended witness: two sources, of two and one row groups; three
records are emitted, and the first record carries exactly the first item's
field names. -/
theorem schemaIterator_one_record_per_item_witness :
    (schemaIteratorEmitted
        [[ScanItem.recordBatch ["a"], ScanItem.dynRowGroup ["a", "b"]],
          [ScanItem.dynRowGroup ["c"]]]).length =
      (collectRowGroups
        [[ScanItem.recordBatch ["a"], ScanItem.dynRowGroup ["a", "b"]],
          [ScanItem.dynRowGroup ["c"]]]).length ∧
    (0 < (collectRowGroups
        [[ScanItem.recordBatch ["a"], ScanItem.dynRowGroup ["a", "b"]],
          [ScanItem.dynRowGroup ["c"]]]).length) ∧
    (schemaIteratorEmitted
        [[ScanItem.recordBatch ["a"], ScanItem.dynRowGroup ["a", "b"]],
          [ScanItem.dynRowGroup ["c"]]]).get ⟨0, by decide⟩ =
      ((collectRowGroups
        [[ScanItem.recordBatch ["a"], ScanItem.dynRowGroup ["a", "b"]],
          [ScanItem.dynRowGroup ["c"]]]).get ⟨0, by decide⟩).fieldNames :=
  ⟨(schemaIterator_one_record_per_item _).1, by decide,
    (schemaIterator_one_record_per_item _).2 0 (by decide)⟩

/-! ### Synchronize barrier -/

/-- Modelled from the spec: the Synchronize barrier of the physicalplan
package is not under src/ (only its test TestNoRaceAndSingleFinish is, in
src/unnamed/part_000).  Spec section 4.5: Callback forwards to
sink.Callback under a mutex, so sink calls are strictly serialized and
never concurrent; Finish decrements the producer counter under the mutex
and invokes sink.Finish exactly once when the counter reaches zero,
otherwise returns nil without invoking it.  Because every barrier operation
runs under the one mutex, a concurrent execution is an arbitrary
interleaving of atomic operations; the state records the producer counter
and how many times each sink method has been invoked. -/
structure SyncState where
  producers : Nat
  sinkCallbacks : Nat
  sinkFinishes : Nat
  deriving DecidableEq, Repr

/-- One atomic barrier operation by some producer. -/
inductive SyncOp where
  | callback
  | finish
  deriving DecidableEq, Repr

/-- Modelled from the spec: one barrier step.  Callback forwards to
sink.Callback; Finish decrements the counter and, exactly when it reaches
zero, invokes sink.Finish. -/
def syncStep (s : SyncState) : SyncOp → SyncState
  | SyncOp.callback => { s with sinkCallbacks := s.sinkCallbacks + 1 }
  | SyncOp.finish =>
    if s.producers - 1 = 0 then
      { s with producers := s.producers - 1, sinkFinishes := s.sinkFinishes + 1 }
    else { s with producers := s.producers - 1 }

/-- Run the barrier over an interleaved operation sequence, with p
registered producers (each producer registers before its first operation,
as in the test's wg.Add(1) before the loop). -/
def syncRun (p : Nat) (ops : List SyncOp) : SyncState :=
  ops.foldl syncStep { producers := p, sinkCallbacks := 0, sinkFinishes := 0 }

/-- The operation sequence of one producer: k callbacks followed by exactly
one Finish. -/
def producerTrace (k : Nat) : List SyncOp :=
  List.replicate k SyncOp.callback ++ [SyncOp.finish]

theorem syncRun_foldl (ops : List SyncOp) (s : SyncState)
    (h : ops.count SyncOp.finish ≤ s.producers) :
    (ops.foldl syncStep s).sinkCallbacks = s.sinkCallbacks + ops.count SyncOp.callback ∧
    (ops.foldl syncStep s).producers = s.producers - ops.count SyncOp.finish ∧
    (ops.foldl syncStep s).sinkFinishes = s.sinkFinishes +
      (if 0 < s.producers ∧ ops.count SyncOp.finish = s.producers then 1 else 0) := by
  induction ops generalizing s with
  | nil =>
    refine ⟨by simp, by simp, ?_⟩
    simp only [List.foldl_nil, List.count_nil]
    rw [if_neg (by omega)]
    omega
  | cons op rest ih =>
    cases op with
    | callback =>
      have hc : (SyncOp.callback :: rest).count SyncOp.finish = rest.count SyncOp.finish := by
        simp [List.count_cons]
      have hcc : (SyncOp.callback :: rest).count SyncOp.callback =
          rest.count SyncOp.callback + 1 := by
        simp [List.count_cons]
      rw [hc] at h
      have hih := ih { s with sinkCallbacks := s.sinkCallbacks + 1 } (by dsimp only; omega)
      simp only [List.foldl_cons, syncStep, hc, hcc]
      refine ⟨?_, ?_, ?_⟩
      · rw [hih.1]; dsimp only; omega
      · rw [hih.2.1]
      · rw [hih.2.2]
    | finish =>
      have hc : (SyncOp.finish :: rest).count SyncOp.finish =
          rest.count SyncOp.finish + 1 := by
        simp [List.count_cons]
      have hcc : (SyncOp.finish :: rest).count SyncOp.callback =
          rest.count SyncOp.callback := by
        simp [List.count_cons]
      rw [hc] at h
      by_cases hz : s.producers - 1 = 0
      · have hs1 : s.producers = 1 := by omega
        have hr0 : rest.count SyncOp.finish = 0 := by omega
        have hih := ih { s with producers := s.producers - 1, sinkFinishes := s.sinkFinishes + 1 }
          (by dsimp only; omega)
        simp only [List.foldl_cons, syncStep, if_pos hz, hc, hcc]
        refine ⟨?_, ?_, ?_⟩
        · rw [hih.1]
        · rw [hih.2.1]; dsimp only; omega
        · rw [hih.2.2]; dsimp only
          rw [if_neg (by omega), if_pos (by omega)]
      · have hih := ih { s with producers := s.producers - 1 } (by dsimp only; omega)
        simp only [List.foldl_cons, syncStep, if_neg hz, hc, hcc]
        refine ⟨?_, ?_, ?_⟩
        · rw [hih.1]
        · rw [hih.2.1]; dsimp only; omega
        · rw [hih.2.2]; dsimp only
          by_cases hcond : 0 < s.producers ∧ rest.count SyncOp.finish + 1 = s.producers
          · obtain ⟨h1, h2⟩ := hcond
            rw [if_pos (by omega), if_pos (by omega)]
          · rw [if_neg (by omega), if_neg hcond]

theorem producerTrace_count_finish (k : Nat) :
    (producerTrace k).count SyncOp.finish = 1 := by
  simp [producerTrace, List.count_replicate]

theorem producerTrace_count_callback (k : Nat) :
    (producerTrace k).count SyncOp.callback = k := by
  simp [producerTrace, List.count_replicate]

theorem traces_count_finish (ks : List Nat) :
    ((ks.map producerTrace).flatten).count SyncOp.finish = ks.length := by
  induction ks with
  | nil => rfl
  | cons k rest ih =>
    simp only [List.map_cons, List.flatten_cons, List.count_append,
      producerTrace_count_finish, ih, List.length_cons]
    omega

theorem traces_count_callback (ks : List Nat) :
    ((ks.map producerTrace).flatten).count SyncOp.callback = ks.sum := by
  induction ks with
  | nil => rfl
  | cons k rest ih =>
    simp only [List.map_cons, List.flatten_cons, List.count_append,
      producerTrace_count_callback, ih, List.sum_cons]

/-- C6: for every set of producers, the i-th issuing k_i Callback calls
followed by exactly one Finish, and for every interleaving of their
operation sequences (every interleaving is in particular a permutation of
their concatenation), sink.Callback is invoked exactly the sum of the k_i
times, sink.Finish is invoked exactly once, and along every proper stage of
the run at which some producer has not yet called Finish, sink.Finish has
not been invoked — it fires only after the last producer's Finish.
Non-overlap of sink invocations holds by construction: every sink call
happens inside the barrier's mutex, which this model renders as atomic
steps. -/
theorem synchronize_barrier (ks : List Nat) (ops : List SyncOp)
    (hP : 0 < ks.length)
    (hperm : ops.Perm ((ks.map producerTrace).flatten)) :
    (syncRun ks.length ops).sinkCallbacks = ks.sum ∧
    (syncRun ks.length ops).sinkFinishes = 1 ∧
    ∀ pre : List SyncOp, pre.count SyncOp.finish < ks.length →
      (syncRun ks.length pre).sinkFinishes = 0 := by
  have hcf : ops.count SyncOp.finish = ks.length := by
    rw [hperm.count_eq, traces_count_finish]
  have hcc : ops.count SyncOp.callback = ks.sum := by
    rw [hperm.count_eq, traces_count_callback]
  have hrun := syncRun_foldl ops
    { producers := ks.length, sinkCallbacks := 0, sinkFinishes := 0 } (by simp [hcf])
  refine ⟨?_, ?_, ?_⟩
  · rw [syncRun, hrun.1, hcc]
    simp
  · rw [syncRun, hrun.2.2]
    simp [hcf, hP]
  · intro pre hlt
    have hpre := syncRun_foldl pre
      { producers := ks.length, sinkCallbacks := 0, sinkFinishes := 0 }
      (by simp; omega)
    rw [syncRun, hpre.2.2]
    have : ¬(0 < ks.length ∧ pre.count SyncOp.finish = ks.length) := by omega
    simp [this]

/-- C6 witness: two producers issuing 2 and 1 callbacks; the identity
interleaving gives 3 sink callbacks and exactly one sink Finish, and no
Finish before the last producer finished. -/
theorem synchronize_barrier_witness :
    (0 < ([2, 1] : List Nat).length ∧
      (((([2, 1] : List Nat)).map producerTrace).flatten).Perm
        ((([2, 1] : List Nat)).map producerTrace).flatten) ∧
    ((syncRun ([2, 1] : List Nat).length ((([2, 1] : List Nat)).map producerTrace).flatten).sinkCallbacks =
        ([2, 1] : List Nat).sum ∧
      (syncRun ([2, 1] : List Nat).length ((([2, 1] : List Nat)).map producerTrace).flatten).sinkFinishes = 1 ∧
      ∀ pre : List SyncOp, pre.count SyncOp.finish < ([2, 1] : List Nat).length →
        (syncRun ([2, 1] : List Nat).length pre).sinkFinishes = 0) :=
  ⟨⟨by decide, List.Perm.refl _⟩,
    synchronize_barrier [2, 1] _ (by decide) (List.Perm.refl _)⟩

/-! ### parquetRowWriter (src/table.go lines 882-970) -/

/-- parquetRowWriter (src/table.go lines 883-893).  bufLen stands for
len(p.rowsBuf); the source only ever shrinks it by re-slicing, which
persists across loop iterations since p holds the slice.  flushed records
the row count of each row group closed by w.Flush; rows written since the
last flush sit in rowGroupRowsWritten.  Go ints are embedded as Nat (all
values involved are non-negative: sizes come from uint64 config and row
counts). -/
structure ParquetRowWriter where
  rowGroupSize : Nat
  maxNumRows : Nat
  bufLen : Nat
  rowGroupRowsWritten : Nat
  totalRowsWritten : Nat
  flushed : List Nat
  deriving DecidableEq, Repr

/-- The first buffer re-slicing at the top of the writeRows loop body
(src/table.go lines 933-936): shrink rowsBuf to read only as many rows as
complete the row group size limit. -/
def buf1Adjusted (p : ParquetRowWriter) : Nat :=
  if 0 < p.rowGroupSize ∧ p.rowGroupSize < p.rowGroupRowsWritten + p.bufLen
    then p.rowGroupSize - p.rowGroupRowsWritten else p.bufLen

/-- The second buffer re-slicing (src/table.go lines 937-941): shrink the
already-adjusted rowsBuf further so the rows read cannot bring
totalRowsWritten over maxNumRows.  Returns the final adjusted buffer
length. -/
def adjustBuf (p : ParquetRowWriter) : Nat :=
  if p.maxNumRows ≠ 0 ∧ p.maxNumRows < p.totalRowsWritten + buf1Adjusted p
    then p.maxNumRows - p.totalRowsWritten else buf1Adjusted p

/-- The writeRows loop body after a successful ReadRows of n rows
(src/table.go lines 950-961): record the shrunk buffer, add n to the two
row counters, then flush the row group when rowGroupRowsWritten has reached
rowGroupSize, recording the flushed group's row count and resetting the
counter (the branches inline the intermediate state after the counter
updates). -/
def writeRowsStep (p : ParquetRowWriter) (n : Nat) : ParquetRowWriter :=
  if 0 < p.rowGroupSize ∧ p.rowGroupSize ≤ p.rowGroupRowsWritten + n then
    { p with
      bufLen := adjustBuf p,
      rowGroupRowsWritten := 0,
      totalRowsWritten := p.totalRowsWritten + n,
      flushed := p.flushed ++ [p.rowGroupRowsWritten + n] }
  else
    { p with
      bufLen := adjustBuf p,
      rowGroupRowsWritten := p.rowGroupRowsWritten + n,
      totalRowsWritten := p.totalRowsWritten + n }

/-- parquetRowWriter.writeRows (src/table.go lines 930-965).  The rows
reader is modelled by the number of rows it still has: ReadRows(buf) reads
min(len(buf), remaining) rows (the io.EOF case carries the partial count,
exactly as the source tolerates).  The unbounded loop gets fuel; fuel
remaining+1 always suffices since every continuing iteration consumes at
least one row. -/
def writeRows (p : ParquetRowWriter) (remaining written fuel : Nat) :
    ParquetRowWriter × Nat :=
  match fuel with
  | 0 => (p, written)
  | Nat.succ fuel =>
    if p.maxNumRows = 0 ∨ p.totalRowsWritten < p.maxNumRows then
      if min (adjustBuf p) remaining = 0 then ({ p with bufLen := adjustBuf p }, written)
      else
        writeRows (writeRowsStep p (min (adjustBuf p) remaining))
          (remaining - min (adjustBuf p) remaining)
          (written + min (adjustBuf p) remaining) fuel
    else (p, written)

theorem total_plus_adjust_le (p : ParquetRowWriter) (hm : p.maxNumRows ≠ 0)
    (hlt : p.totalRowsWritten < p.maxNumRows) :
    p.totalRowsWritten + adjustBuf p ≤ p.maxNumRows := by
  unfold adjustBuf buf1Adjusted
  split_ifs <;> omega

theorem rgw_plus_adjust_le (p : ParquetRowWriter) (hr : 0 < p.rowGroupSize)
    (hrgw : p.rowGroupRowsWritten ≤ p.rowGroupSize) :
    p.rowGroupRowsWritten + adjustBuf p ≤ p.rowGroupSize := by
  unfold adjustBuf buf1Adjusted
  split_ifs <;> omega

theorem writeRowsStep_const (p : ParquetRowWriter) (n : Nat) :
    (writeRowsStep p n).maxNumRows = p.maxNumRows ∧
    (writeRowsStep p n).rowGroupSize = p.rowGroupSize ∧
    (writeRowsStep p n).totalRowsWritten = p.totalRowsWritten + n := by
  unfold writeRowsStep
  split <;> simp

theorem writeRowsStep_rgw (p : ParquetRowWriter) (n : Nat) (hr : 0 < p.rowGroupSize)
    (hb : p.rowGroupRowsWritten + n ≤ p.rowGroupSize) :
    (writeRowsStep p n).rowGroupRowsWritten ≤ p.rowGroupSize := by
  unfold writeRowsStep
  split <;> simp <;> omega

theorem writeRowsStep_flushed (p : ParquetRowWriter) (n : Nat) (s : Nat)
    (hs : s ∈ (writeRowsStep p n).flushed) :
    s ∈ p.flushed ∨
    (0 < p.rowGroupSize ∧ p.rowGroupSize ≤ p.rowGroupRowsWritten + n ∧
      s = p.rowGroupRowsWritten + n) := by
  unfold writeRowsStep at hs
  split at hs
  · next hcond =>
    simp only [List.mem_append, List.mem_singleton] at hs
    rcases hs with h1 | h2
    · exact Or.inl h1
    · exact Or.inr ⟨hcond.1, hcond.2, h2⟩
  · exact Or.inl (by simpa using hs)

/-- C10: with maxNumRows nonzero the cumulative totalRowsWritten never
exceeds maxNumRows; and with rowGroupSize positive the writer flushes a row
group exactly when rowGroupRowsWritten reaches rowGroupSize and resets the
counter, so every flushed row group holds at most rowGroupSize rows and the
rows pending in the current group never exceed rowGroupSize either. -/
theorem writeRows_bounds (p : ParquetRowWriter) (remaining written fuel : Nat)
    (hmax : p.maxNumRows ≠ 0 → p.totalRowsWritten ≤ p.maxNumRows)
    (hrg : 0 < p.rowGroupSize → p.rowGroupRowsWritten ≤ p.rowGroupSize)
    (hfl : ∀ s ∈ p.flushed, s ≤ p.rowGroupSize) :
    (p.maxNumRows ≠ 0 →
      (writeRows p remaining written fuel).1.totalRowsWritten ≤ p.maxNumRows) ∧
    (0 < p.rowGroupSize →
      (∀ s ∈ (writeRows p remaining written fuel).1.flushed, s ≤ p.rowGroupSize) ∧
      (writeRows p remaining written fuel).1.rowGroupRowsWritten ≤ p.rowGroupSize) := by
  induction fuel generalizing p remaining written with
  | zero =>
    exact ⟨fun hm => by simpa [writeRows] using hmax hm,
      fun hr => ⟨by simpa [writeRows] using hfl, by simpa [writeRows] using hrg hr⟩⟩
  | succ n ih =>
    rw [writeRows]
    by_cases hloop : p.maxNumRows = 0 ∨ p.totalRowsWritten < p.maxNumRows
    · rw [if_pos hloop]
      by_cases hn : min (adjustBuf p) remaining = 0
      · rw [if_pos hn]
        exact ⟨fun hm => hmax hm, fun hr => ⟨hfl, hrg hr⟩⟩
      · rw [if_neg hn]
        set n0 := min (adjustBuf p) remaining with hn0def
        have hnle : n0 ≤ adjustBuf p := min_le_left _ _
        have hc := writeRowsStep_const p n0
        have htot : p.maxNumRows ≠ 0 →
            (writeRowsStep p n0).totalRowsWritten ≤ p.maxNumRows := by
          intro hm
          rw [hc.2.2]
          rcases hloop with h0 | hlt
          · exact absurd h0 hm
          · have := total_plus_adjust_le p hm hlt
            omega
        have hrgw : 0 < p.rowGroupSize →
            (writeRowsStep p n0).rowGroupRowsWritten ≤ p.rowGroupSize := by
          intro hr
          refine writeRowsStep_rgw p n0 hr ?_
          have := rgw_plus_adjust_le p hr (hrg hr)
          omega
        have hfl2 : ∀ s ∈ (writeRowsStep p n0).flushed, s ≤ p.rowGroupSize := by
          intro s hs
          rcases writeRowsStep_flushed p n0 s hs with h1 | ⟨hr, _hle, hseq⟩
          · exact hfl s h1
          · subst hseq
            have := rgw_plus_adjust_le p hr (hrg hr)
            omega
        have hih := ih (writeRowsStep p n0) (remaining - n0) (written + n0)
          (fun hm => by rw [hc.1] at hm; rw [hc.1]; exact htot hm)
          (fun hr => by rw [hc.2.1] at hr; rw [hc.2.1]; exact hrgw hr)
          (fun s hs => by rw [hc.2.1]; exact hfl2 s hs)
        refine ⟨fun hm => ?_, fun hr => ⟨?_, ?_⟩⟩
        · have h2 := hih.1 (by rw [hc.1]; exact hm)
          rw [hc.1] at h2
          exact h2
        · intro s hs
          have h2 := (hih.2 (by rw [hc.2.1]; exact hr)).1 s hs
          rw [hc.2.1] at h2
          exact h2
        · have h2 := (hih.2 (by rw [hc.2.1]; exact hr)).2
          rw [hc.2.1] at h2
          exact h2
    · rw [if_neg hloop]
      exact ⟨fun hm => hmax hm, fun hr => ⟨hfl, hrg hr⟩⟩

/-- C10 witness: rowGroupSize 2, maxNumRows 5, buffer 3; feeding 10 rows
writes at most 5 total and every flushed row group holds at most 2 rows. -/
theorem writeRows_bounds_witness :
    (((5 : Nat) ≠ 0 → (0 : Nat) ≤ 5) ∧ ((0 : Nat) < 2 → (0 : Nat) ≤ 2) ∧
      (∀ s ∈ ([] : List Nat), s ≤ 2)) ∧
    (((5 : Nat) ≠ 0 →
      (writeRows ⟨2, 5, 3, 0, 0, []⟩ 10 0 11).1.totalRowsWritten ≤ 5) ∧
    ((0 : Nat) < 2 →
      (∀ s ∈ (writeRows ⟨2, 5, 3, 0, 0, []⟩ 10 0 11).1.flushed, s ≤ 2) ∧
      (writeRows ⟨2, 5, 3, 0, 0, []⟩ 10 0 11).1.rowGroupRowsWritten ≤ 2)) :=
  ⟨⟨fun _ => by decide, fun _ => by decide, by decide⟩,
    writeRows_bounds ⟨2, 5, 3, 0, 0, []⟩ 10 0 11
      (fun _ => by decide) (fun _ => by decide) (by decide)⟩

end FrostDB
